import Mathlib

/-!
Verification development for two asset encoders of the thundercracker
repository: the DUB tile codec (`src/stir/src/dubencoder.cpp`) and the
ADPCM / PCM audio encoders (`src/stir/src/audioencoder.cpp`).

Machine integers are modelled as `Nat`/`Int` with explicit `% 2^w`
where wraparound can matter (the 32-bit unsigned multiply in the ADPCM
candidate delta, the `uint16_t` block addresses, the 64-bit error
accumulator).  C vectors become `List Nat` (bytes / 16-bit words).
-/

set_option maxRecDepth 4000

namespace Thunder

/-! ### Bit buffer

The `BitBuffer` class lives in `dubencoder.h`, which is not part of the
source snapshot; it is modelled from the spec (§4.3). -/

/-- Modelled from the spec: the bit accumulator of `dubencoder.h`'s
`BitBuffer` — `bits` holds `count` buffered bits, new bits entering at
position `count`, so that the earliest appended bits sit in the low bits
of the first flushed little-endian 16-bit word. -/
structure BitBuf where
  bits : Nat
  count : Nat
  deriving Repr, DecidableEq

/-- Modelled from the spec: `append(value, n)` places the low `n` bits of
`value` at the lowest-numbered unused bit positions. -/
def bbAppend (b : BitBuf) (v n : Nat) : BitBuf :=
  ⟨b.bits + (v % 2 ^ n) * 2 ^ b.count, b.count + n⟩

/-- Structural helper for `varChunks3`; the fuel is an upper bound on
the value, so the zero-fuel case is unreachable from `varChunks3`. -/
def varChunks3Go : Nat → Nat → List Nat
  | 0, v => [v]
  | fuel + 1, v => if v < 8 then [v] else v % 8 :: varChunks3Go fuel (v / 8)

/-- The successive 3-bit groups of a value, least-significant group
first, as emitted by `appendVar` with chunk size 3. -/
def varChunks3 (v : Nat) : List Nat :=
  varChunks3Go v v

/-- Emit chunk groups: a 1-bit continuation flag (1 = more groups
follow, 0 = last group) precedes each 3-bit group. -/
def emitChunks (b : BitBuf) : List Nat → BitBuf
  | [] => b
  | [g] => bbAppend (bbAppend b 0 1) g 3
  | g :: g2 :: rest => emitChunks (bbAppend (bbAppend b 1 1) g 3) (g2 :: rest)

/-- Modelled from the spec: `appendVar(value, 3)` — variable-length
unsigned integer, 3-bit groups, least-significant first, each preceded
by a continuation flag. -/
def bbAppendVar3 (b : BitBuf) (v : Nat) : BitBuf :=
  emitChunks b (varChunks3 v)

/-- Structural helper for `flushCore`; the fuel is an upper bound on
the bit count, so the zero-fuel case is unreachable from `flushCore`. -/
def flushCoreGo : Nat → Nat → Nat → List Nat × (Nat × Nat)
  | 0, bits, count => ([], (bits, count))
  | fuel + 1, bits, count =>
    if 16 ≤ count then
      let r := flushCoreGo fuel (bits / 2 ^ 16) (count - 16)
      (bits % 2 ^ 16 :: r.1, r.2)
    else ([], (bits, count))

/-- Remove whole 16-bit words from the front of the accumulator.
Returns the flushed words (in emission order) and the remaining
(bits, count). -/
def flushCore (bits count : Nat) : List Nat × (Nat × Nat) :=
  flushCoreGo count bits count

/-- Modelled from the spec: `flush(out, final)` — emit whole 16-bit
words; when `fin` is set, right-pad any remaining bits with zeros to a
full word and emit it. -/
def bbFlush (b : BitBuf) (fin : Bool) : List Nat × BitBuf :=
  let r := flushCore b.bits b.count
  if fin ∧ r.2.2 ≠ 0 then (r.1 ++ [r.2.1 % 2 ^ 16], ⟨0, 0⟩)
  else (r.1, ⟨r.2.1, r.2.2⟩)

/-! ### DUB per-block encoder (`DUBEncoder::encodeBlock` and helpers) -/

/-- Code types of `DUBEncoder::Code`. -/
inductive CType where
  | DELTA | REF | REPEAT | INVALID
  deriving Repr, DecidableEq

/-- `DUBEncoder::Code`: a code type plus a signed value. -/
structure Code where
  type : CType
  value : Int
  deriving Repr, DecidableEq

/-- `DUBEncoder::packCode`: append the bit encoding of a code
(chunk size 3).  `INVALID` asserts in the source and is never packed. -/
def packCode (c : Code) (b : BitBuf) : BitBuf :=
  match c.type with
  | CType.DELTA =>
    let b1 := bbAppend b 0 1
    if c.value < 0 then bbAppendVar3 (bbAppend b1 1 1) (-c.value).toNat
    else bbAppendVar3 (bbAppend b1 0 1) c.value.toNat
  | CType.REF => bbAppendVar3 (bbAppend b 1 1) c.value.toNat
  | CType.REPEAT => bbAppendVar3 b c.value.toNat
  | CType.INVALID => b

/-- `DUBEncoder::codeLen`: bit length of a code, measured by packing it
into a scratch buffer. -/
def codeLen (c : Code) : Nat :=
  (packCode c ⟨0, 0⟩).count

/-- The backward scan of `DUBEncoder::findBestCode`: for each `i`
(most recent first), if `dict[len-1-i] == tile`, accept `REF i` when its
packed length is `≤` the best so far (and stop); otherwise keep
scanning. -/
def refScan (dict : List Nat) (tile : Nat) (best : Code) (bestLen : Nat) :
    List Nat → Code
  | [] => best
  | i :: rest =>
    if dict.getD (dict.length - 1 - i) 0 = tile then
      if codeLen ⟨CType.REF, (i : Int)⟩ ≤ bestLen then ⟨CType.REF, (i : Int)⟩
      else refScan dict tile best bestLen rest
    else refScan dict tile best bestLen rest

/-- `DUBEncoder::findBestCode`: a DELTA code against the most recent
dictionary entry (the tile itself on an empty dictionary), improved by a
backward REF scan where REF wins ties. -/
def findBestCode (dict : List Nat) (tile : Nat) : Code :=
  let c0 : Code :=
    if dict.isEmpty then ⟨CType.DELTA, (tile : Int)⟩
    else ⟨CType.DELTA, (tile : Int) - ((dict.getLast?.getD 0 : Nat) : Int)⟩
  refScan dict tile c0 (codeLen c0) (List.range dict.length)

/-- Per-block encoder state of `DUBEncoder::encodeBlock`:
bit buffer, flushed payload words, dictionary, previous code
(type/value), repeat counter and the repeating flag. -/
structure BState where
  bits : BitBuf
  data : List Nat
  dict : List Nat
  prevType : CType
  prevValue : Int
  repeatCount : Nat
  repeating : Bool
  deriving Repr, DecidableEq

/-- Initial per-block state: `prevCode = { Code::INVALID }` (value
zero-initialized), no run active. -/
def dubInit : BState :=
  ⟨⟨0, 0⟩, [], [], CType.INVALID, 0, 0, false⟩

/-- The loop body of `DUBEncoder::encodeBlock` for one tile: choose the
best code, update the dictionary and `prevCode`, then run handling —
extend a run (skip emission), break a run (emit REPEAT then the code),
begin a run (set the flag, still emit the code), or plainly emit. -/
def dubStep (s : BState) (tile : Nat) : BState :=
  let code := findBestCode s.dict tile
  let dict2 := s.dict ++ [tile]
  let same := code.type = s.prevType ∧ code.value = s.prevValue
  if s.repeating then
    if same then
      { s with dict := dict2, prevType := code.type, prevValue := code.value,
               repeatCount := s.repeatCount + 1 }
    else
      let b1 := packCode ⟨CType.REPEAT, (s.repeatCount : Int)⟩ s.bits
      let f1 := bbFlush b1 false
      let b2 := packCode code f1.2
      let f2 := bbFlush b2 false
      { bits := f2.2, data := s.data ++ f1.1 ++ f2.1, dict := dict2,
        prevType := code.type, prevValue := code.value,
        repeatCount := s.repeatCount, repeating := false }
  else
    let b2 := packCode code s.bits
    let f2 := bbFlush b2 false
    { bits := f2.2, data := s.data ++ f2.1, dict := dict2,
      prevType := code.type, prevValue := code.value,
      repeatCount := if same then 0 else s.repeatCount,
      repeating := same }

/-- The tail of `DUBEncoder::encodeBlock`: flush a stowed REPEAT code of
a still-open run, then flush all remaining bits padded to a word. -/
def dubFinish (s : BState) : List Nat :=
  let b1 := if s.repeating then packCode ⟨CType.REPEAT, (s.repeatCount : Int)⟩ s.bits
            else s.bits
  s.data ++ (bbFlush b1 true).1

/-- `DUBEncoder::encodeBlock`, over the block's tiles in row-major
order: the encoded block payload (16-bit words). -/
def encodeBlock (tiles : List Nat) : List Nat :=
  dubFinish (tiles.foldl dubStep dubInit)

/-- Total number of bits committed by a block-encoder state: flushed
words plus buffered bits.  Never decreases along the encoding loop. -/
def dubBitsTotal (s : BState) : Nat :=
  16 * s.data.length + s.bits.count

/-! ### DUB blocking, deduplication and index (`DUBEncoder::encodeTiles`) -/

/-- Tile lookup: entry `x + y*mWidth + f*mWidth*mHeight` of the flat
input array. -/
def tileAt (tiles : List Nat) (w h f y x : Nat) : Nat :=
  tiles.getD (f * (w * h) + y * w + x) 0

/-- The tiles of the block whose top-left corner is `(8*bx, 8*by2)` of
frame `f`, in row-major order; edge blocks are clipped to
`min 8 (w - 8*bx)` by `min 8 (h - 8*by2)`. -/
def blockTiles (tiles : List Nat) (w h f by2 bx : Nat) : List Nat :=
  (List.range (min 8 (h - 8 * by2))).flatMap fun yy =>
    (List.range (min 8 (w - 8 * bx))).map fun xx =>
      tileAt tiles w h f (8 * by2 + yy) (8 * bx + xx)

/-- The encoded payloads of all blocks in (frame, block-row,
block-column) order, as produced by the block loop of
`DUBEncoder::encodeTiles` (`x`/`y` step by `BLOCK_SIZE = 8`). -/
def blockPayloads (tiles : List Nat) (w h f : Nat) : List (List Nat) :=
  (List.range f).flatMap fun fi =>
    (List.range ((h + 7) / 8)).flatMap fun by2 =>
      (List.range ((w + 7) / 8)).map fun bx =>
        encodeBlock (blockTiles tiles w h fi by2 bx)

/-- Deduplication state of `DUBEncoder::encodeTiles`: the index array,
the concatenated unique block data, and the memo mapping a payload to
the (`uint16_t`) word address of its first occurrence. -/
structure DState where
  idx : List Nat
  blocks : List Nat
  memo : List (List Nat × Nat)
  deriving Repr, DecidableEq

/-- One block of the dedupe loop: a payload already in the memo reuses
its address; a new payload is assigned the current end of the block
data (truncated to `uint16_t`), appended, and recorded. -/
def dedupeStep (st : DState) (p : List Nat) : DState :=
  match st.memo.find? (fun e => e.1 = p) with
  | some e => { st with idx := st.idx ++ [e.2] }
  | none =>
    let addr := st.blocks.length % 2 ^ 16
    ⟨st.idx ++ [addr], st.blocks ++ p, st.memo ++ [(p, addr)]⟩

/-- The dedupe loop over all block payloads. -/
def dedupe (ps : List (List Nat)) : DState :=
  ps.foldl dedupeStep ⟨[], [], []⟩

/-- `DUBEncoder::getIndexSize`: size of the index in words (8-bit
entries are paired into words, rounding up). -/
def dubIndexSize (idx : List Nat) (index16 : Bool) : Nat :=
  if index16 then idx.length else (idx.length + 1) / 2

/-- `DUBEncoder::packIndex`: word offset from the word after index slot
`i` to the block payload.  The C computation is in 32-bit unsigned
arithmetic; since `nextWord ≤ indexSize` (proved below) the `Nat`
subtraction agrees with it. -/
def dubPackIndex (idx : List Nat) (index16 : Bool) (i : Nat) : Nat :=
  dubIndexSize idx index16 + idx.getD i 0 -
    (if index16 then i + 1 else (i + 2) / 2)

/-- Result of `DUBEncoder::encodeTiles`: index array, block data, and
the chosen index width. -/
structure DubResult where
  indexResult : List Nat
  blockResult : List Nat
  mIndex16 : Bool
  deriving Repr, DecidableEq

/-- `DUBEncoder::encodeTiles`: encode and dedupe all blocks, then probe
the packed index under the 8-bit hypothesis — any entry `≥ 0x100`
switches the index to 16-bit. -/
def encodeTiles (tiles : List Nat) (w h f : Nat) : DubResult :=
  let d := dedupe (blockPayloads tiles w h f)
  { indexResult := d.idx, blockResult := d.blocks,
    mIndex16 := (List.range d.idx.length).any
      (fun i => 0x100 ≤ dubPackIndex d.idx false i) }

/-- `DUBEncoder::getNumBlocks`. -/
def dubNumBlocks (w h f : Nat) : Nat :=
  ((w + 8 - 1) / 8) * ((h + 8 - 1) / 8) * f

/-- `DUBEncoder::isTooLarge`: index plus block data must stay below
65536 words. -/
def dubIsTooLarge (r : DubResult) : Bool :=
  decide (2 ^ 16 ≤ dubIndexSize r.indexResult r.mIndex16 + r.blockResult.length)

/-! ### Spec-side DUB notions (for refinement statements) -/

/-- The distinct payloads in first-occurrence order (spec §4.2:
"the bit-packed payloads of all unique blocks, in first-occurrence
order"). -/
def uniqueFirsts (ps : List (List Nat)) : List (List Nat) :=
  ps.foldl (fun acc p => if p ∈ acc then acc else acc ++ [p]) []

/-- Word offset of the first occurrence of payload `p` inside the
concatenation of the payload list `u`. -/
def offsetIn : List (List Nat) → List Nat → Nat
  | [], _ => 0
  | q :: rest, p => if q = p then 0 else q.length + offsetIn rest p

/-! ### ADPCM encoder (`ADPCMEncoder` of `audioencoder.cpp`) -/

/-- Modelled from the spec: `INDEX_MAX` is declared in
`audioencoder.h`, which is not part of the source snapshot.  The spec
fixes the step index range to `[0, 88]` (89-entry step table, clamp
`min(INDEX_MAX, max(0, index))`), so `INDEX_MAX = 88`. -/
def INDEX_MAX : Nat := 88

/-- `stepSizeTable[89]` from `ADPCMEncoder::encodeSample`. -/
def stepSizeTable : List Nat :=
  [7, 8, 9, 10, 11, 12, 13, 14, 16, 17, 19, 21, 23, 25, 28, 31,
   34, 37, 41, 45, 50, 55, 60, 66, 73, 80, 88, 97, 107, 118, 130,
   143, 157, 173, 190, 209, 230, 253, 279, 307, 337, 371, 408, 449,
   494, 544, 598, 658, 724, 796, 876, 963, 1060, 1166, 1282, 1411,
   1552, 1707, 1878, 2066, 2272, 2499, 2749, 3024, 3327, 3660, 4026,
   4428, 4871, 5358, 5894, 6484, 7132, 7845, 8630, 9493, 10442, 11487,
   12635, 13899, 15289, 16818, 18500, 20350, 22385, 24623, 27086, 29794, 32767]

/-- `codeTable[16]` from `ADPCMEncoder::encodeSample`, as the raw
32-bit patterns. -/
def codeTable : List Nat :=
  [0xFFFFFF01, 0xFFFFFF03, 0xFFFFFF05, 0xFFFFFF07,
   0x00000209, 0x0000040B, 0x0000060D, 0x0000080F,
   0xFFFFFFFF, 0xFFFFFFFD, 0xFFFFFFFB, 0xFFFFFFF9,
   0x000002F7, 0x000004F5, 0x000006F3, 0x000008F1]

/-- Reinterpret a value in `[0, 2^32)` as a signed 32-bit integer. -/
def toSigned32 (x : Int) : Int :=
  if x < 2 ^ 31 then x else x - 2 ^ 32

/-- `int8_t(codeTable[c])`: the low byte of the code-table entry as a
signed 8-bit multiplier. -/
def codeMult (c : Nat) : Int :=
  if codeTable.getD c 0 % 256 < 128 then ((codeTable.getD c 0 % 256 : Nat) : Int)
  else ((codeTable.getD c 0 % 256 : Nat) : Int) - 256

/-- `codeTable[c] >> 8` on the signed 32-bit entry: the index
adjustment (arithmetic shift = floor division by 256). -/
def codeAdj (c : Nat) : Int :=
  (toSigned32 (codeTable.getD c 0)).fdiv 256

/-- The candidate delta of `ADPCMEncoder::encodeSample`:
`int(unsigned(int8_t(codeTable[code])) * unsigned(step)) >> 3` — the
multiplier converted to 32-bit unsigned, multiplied by `step` mod
`2^32`, the product reinterpreted as signed 32-bit, then arithmetically
shifted right by 3 (floor division by 8). -/
def candidateDelta (step : Nat) (c : Nat) : Int :=
  (toSigned32 ((codeMult c % 2 ^ 32) * (step : Int) % 2 ^ 32)).fdiv 8

/-- The candidate delta as the spec sentence describes it: multiply as
32-bit unsigned, shift right by 3 as an unsigned (logical) shift, and
only then reinterpret as signed 32-bit. -/
def candidateDeltaSpecC2 (step : Nat) (c : Nat) : Int :=
  toSigned32 ((codeMult c % 2 ^ 32) * (step : Int) % 2 ^ 32 / 8)

/-- Codec state of the ADPCM encoder (`State`): predictor sample and
step index. -/
structure AState where
  sample : Int
  index : Int
  deriving Repr, DecidableEq

/-- The per-candidate error of `ADPCMEncoder::encodeSample`:
`max(x - diff, diff - x)`. -/
def sampErr (diff x : Int) : Int :=
  max (x - diff) (diff - x)

/-- The candidate-selection loop of `ADPCMEncoder::encodeSample`:
starting from the sentinel `bestDiff = 0x100000, bestCode = 0`, accept
any candidate whose error is `≤` the current best (later candidates win
ties). -/
def selectCode (step : Nat) (diff : Int) (l : List Nat) (init : Int × Nat) :
    Int × Nat :=
  l.foldl (fun best c =>
    let thisDiff := candidateDelta step c
    if sampErr diff thisDiff ≤ sampErr diff best.1 then (thisDiff, c) else best)
    init

/-- `ADPCMEncoder::encodeSample`: choose the best 4-bit code for the
new sample, clamp the predictor to `[-32768, 32767]` and the index to
`[0, INDEX_MAX]`; returns the code and the updated state. -/
def encodeSample (st : AState) (s : Int) : Nat × AState :=
  let step := stepSizeTable.getD st.index.toNat 0
  let diff := s - st.sample
  let sel := selectCode step diff (List.range 16) (0x100000, 0)
  ( sel.2,
    { sample := min 32767 (max (-32768) (st.sample + sel.1)),
      index := min (INDEX_MAX : Int) (max 0 (st.index + codeAdj sel.2)) } )

/-- `ADPCMEncoder::encodePair`: encode two samples into one byte (first
sample in the low nybble) and return the squared predictor errors. -/
def encodePair (st : AState) (s1 s2 : Int) : Nat × Nat × AState :=
  let r1 := encodeSample st s1
  let e1 := r1.2.sample - s1
  let r2 := encodeSample r1.2 s2
  let e2 := r2.2.sample - s2
  ((r1.1 + 16 * r2.1) % 256, (e1 * e1 + e2 * e2).toNat, r2.2)

/-- Little-endian signed 16-bit sample number `i` of a byte list. -/
def int16At (l : List Nat) (i : Nat) : Int :=
  let v : Nat := (l.getD (2 * i) 0 + 256 * l.getD (2 * i + 1) 0) % 2 ^ 16
  if v < 2 ^ 15 then (v : Int) else (v : Int) - 2 ^ 16

/-- The 3-byte initial-conditions header: predictor low byte, predictor
high byte (arithmetic shift), step index. -/
def adpcmHeader (st : AState) : List Nat :=
  [(st.sample % 256).toNat, (st.sample.fdiv 256 % 256).toNat,
   (st.index % 256).toNat]

/-- One pair iteration of `ADPCMEncoder::encodeWithIC`: state, output
bytes so far, and the running `uint64_t` error sum. -/
def ewicStep (inb : List Nat) (acc : AState × List Nat × Nat) (i : Nat) :
    AState × List Nat × Nat :=
  let p := encodePair acc.1 (int16At inb (2 * i)) (int16At inb (2 * i + 1))
  (p.2.2, acc.2.1 ++ [p.1], (acc.2.2 + p.2.1) % 2 ^ 64)

/-- `ADPCMEncoder::encodeWithIC`: encode `inBytes/2` samples (pairs
first, an odd final sample doubled), producing the output bytes and the
64-bit squared-error sum (accumulated mod `2^64`). -/
def encodeWithIC (st0 : AState) (inb : List Nat) (inBytes : Nat) :
    List Nat × Nat :=
  let numSamples := inBytes / 2
  let numPairs := numSamples / 2
  let r := (List.range numPairs).foldl (ewicStep inb) (st0, adpcmHeader st0, 0)
  if numSamples % 2 = 1 then
    let s1 := int16At inb (numSamples - 1)
    let p := encodePair r.1 s1 s1
    (r.2.1 ++ [p.1], (r.2.2 + p.2.1) % 2 ^ 64)
  else (r.2.1, r.2.2)

/-- The squared-error sum of re-encoding the optimisation prefix (at
most 200 bytes) from seed sample `in[0] | in[1] << 8` and initial step
index `i`. -/
def icErr (inb : List Nat) (i : Nat) : Nat :=
  (encodeWithIC ⟨int16At inb 0, (i : Int)⟩ inb (min 200 inb.length)).2

/-- A strict-improvement argmin fold: keep `(error, index)` and accept
an index only when its value is strictly lower. -/
def argminFold (g : Nat → Nat) (l : List Nat) (init : Nat × Nat) : Nat × Nat :=
  l.foldl (fun best i => if g i < best.1 then (g i, i) else best) init

/-- The initial-index search loop of `ADPCMEncoder::optimizeIC`: try
each index in `[0, n)` starting from `error = uint64_t(-1)`,
`bestIndex = 0`, keeping any strictly lower error. -/
def icSearch (inb : List Nat) (n : Nat) : Nat × Nat :=
  argminFold (icErr inb) (List.range n) (2 ^ 64 - 1, 0)

/-- The index the spec's search retains: among `[0, n)`, the earliest
index whose prefix error is lowest.  (Errors are precomputed once per
index.) -/
def icSpecBest (inb : List Nat) (n : Nat) : Nat :=
  let errs := (List.range n).map (icErr inb)
  (((List.range n).find? fun i =>
    (List.range n).all fun j => errs.getD i 0 ≤ errs.getD j 0)).getD 0

/-- The hill-climbing loop of `ADPCMEncoder::optimizeIC`: try
`sample+1`, `sample-1`, `index+1` (if `< INDEX_MAX`), `index-1`
(if `> 0`), in that order; accept a strictly lower error and restart;
stop when no move improves. -/
def hillClimb (inb : List Nat) (st : AState) (err : Nat) : AState :=
  let inBytes := min 200 inb.length
  let e1 := (encodeWithIC ⟨st.sample + 1, st.index⟩ inb inBytes).2
  if h1 : e1 < err then hillClimb inb ⟨st.sample + 1, st.index⟩ e1
  else
    let e2 := (encodeWithIC ⟨st.sample - 1, st.index⟩ inb inBytes).2
    if h2 : e2 < err then hillClimb inb ⟨st.sample - 1, st.index⟩ e2
    else
      let e3 := (encodeWithIC ⟨st.sample, st.index + 1⟩ inb inBytes).2
      if h3 : st.index < (INDEX_MAX : Int) ∧ e3 < err then
        hillClimb inb ⟨st.sample, st.index + 1⟩ e3
      else
        let e4 := (encodeWithIC ⟨st.sample, st.index - 1⟩ inb inBytes).2
        if h4 : 0 < st.index ∧ e4 < err then
          hillClimb inb ⟨st.sample, st.index - 1⟩ e4
        else st
  termination_by err
  decreasing_by
  · exact h1
  · exact h2
  · exact h3.2
  · exact h4.2

/-- `ADPCMEncoder::optimizeIC`: inputs shorter than 4 bytes get the
zero state; otherwise seed the predictor from the first sample, search
the initial index over `[0, INDEX_MAX)`, then hill-climb. -/
def optimizeIC (inb : List Nat) : AState :=
  if inb.length < 4 then ⟨0, 0⟩
  else
    let r := icSearch inb INDEX_MAX
    hillClimb inb ⟨int16At inb 0, (r.2 : Int)⟩ r.1

/-- `ADPCMEncoder::encode`: optimise initial conditions, then encode
the whole input. -/
def adpcmEncode (inb : List Nat) : List Nat :=
  (encodeWithIC (optimizeIC inb) inb inb.length).1

/-- `PCMEncoder::encode`: append the input bytes to the caller's output
vector (`out.insert(out.end(), in.begin(), in.end())`). -/
def pcmEncode (inb out : List Nat) : List Nat :=
  out ++ inb

/-! ## Theorems -/

/-- C1 (counterexample): at the concrete state with dictionary `[5]`
and previous code `REF 0`, the tile `5` yields the same code again with
no run active; the encoder starts a run with `repeatCount = 0` but does
NOT skip emission — the code's bits are appended (5 bits), so the claim
that this code contributes no bits at that position is false. -/
theorem dubRunStartSkips_counterexample :
    (⟨⟨0, 0⟩, [], [5], CType.REF, 0, 0, false⟩ : BState).repeating = false ∧
    findBestCode [5] 5 = ⟨CType.REF, 0⟩ ∧
    (dubStep ⟨⟨0, 0⟩, [], [5], CType.REF, 0, 0, false⟩ 5).repeating = true ∧
    (dubStep ⟨⟨0, 0⟩, [], [5], CType.REF, 0, 0, false⟩ 5).repeatCount = 0 ∧
    (dubStep ⟨⟨0, 0⟩, [], [5], CType.REF, 0, 0, false⟩ 5).bits.count ≠
      (⟨⟨0, 0⟩, [], [5], CType.REF, 0, 0, false⟩ : BState).bits.count := by
  decide

/-- C1 (amended): when the chosen code equals the previous code while
no run is active, the encoder sets `repeating` with `repeatCount = 0`
but still emits that code — its bits are packed and flushed into the
block payload at that position; only subsequent matching codes are
skipped while the run extends. -/
theorem dub_run_start_emits (s : BState) (t : Nat)
    (h1 : s.repeating = false)
    (h2 : findBestCode s.dict t = ⟨s.prevType, s.prevValue⟩) :
    dubStep s t =
      { bits := (bbFlush (packCode ⟨s.prevType, s.prevValue⟩ s.bits) false).2,
        data := s.data ++ (bbFlush (packCode ⟨s.prevType, s.prevValue⟩ s.bits) false).1,
        dict := s.dict ++ [t],
        prevType := s.prevType, prevValue := s.prevValue,
        repeatCount := 0, repeating := true } := by
  unfold dubStep
  rw [h2, h1]
  simp

/-- C1 (witness for the amended theorem) at the state of the
counterexample. -/
theorem dub_run_start_emits_w :
    (⟨⟨0, 0⟩, [], [5], CType.REF, 0, 0, false⟩ : BState).repeating = false ∧
    findBestCode ([5] : List Nat) 5 =
      ⟨(⟨⟨0, 0⟩, [], [5], CType.REF, 0, 0, false⟩ : BState).prevType,
       (⟨⟨0, 0⟩, [], [5], CType.REF, 0, 0, false⟩ : BState).prevValue⟩ ∧
    dubStep ⟨⟨0, 0⟩, [], [5], CType.REF, 0, 0, false⟩ 5 =
      { bits := (bbFlush (packCode ⟨CType.REF, 0⟩ ⟨0, 0⟩) false).2,
        data := [] ++ (bbFlush (packCode ⟨CType.REF, 0⟩ ⟨0, 0⟩) false).1,
        dict := [5] ++ [5],
        prevType := CType.REF, prevValue := 0,
        repeatCount := 0, repeating := true } :=
  ⟨rfl, by decide,
    dub_run_start_emits ⟨⟨0, 0⟩, [], [5], CType.REF, 0, 0, false⟩ 5 rfl (by decide)⟩

/-- C2 (counterexample): at step size `stepSizeTable[0] = 7` and code 8
(multiplier `int8_t(0xFF) = -1`), the spec's order of operations
(logical shift, then signed reinterpretation) gives `536870911`,
whereas the source (`int(...) >> 3`: signed reinterpretation first,
then an arithmetic shift) gives `-1`. -/
theorem candidateDelta_spec_counterexample :
    candidateDeltaSpecC2 (stepSizeTable.getD 0 0) 8 ≠
      candidateDelta (stepSizeTable.getD 0 0) 8 := by
  decide

/-- Bounds of the signed 8-bit multiplier. -/
theorem codeMult_bounds (c : Nat) : -128 ≤ codeMult c ∧ codeMult c ≤ 127 := by
  unfold codeMult
  have h : codeTable.getD c 0 % 256 < 256 := Nat.mod_lt _ (by norm_num)
  split <;> omega

/-- The 32-bit wrap analysis: for a multiplier in `[-128, 127]` and a
step at most `32767`, converting the multiplier to 32-bit unsigned,
multiplying mod `2^32` and reinterpreting the product as signed 32-bit
recovers the exact signed product. -/
theorem toSigned32_wrap_mul (m : Int) (step : Nat)
    (hm1 : -128 ≤ m) (hm2 : m ≤ 127) (hs : step ≤ 32767) :
    toSigned32 (m % 2 ^ 32 * (step : Int) % 2 ^ 32) = m * step := by
  have hs0 : (0 : Int) ≤ (step : Int) := Int.ofNat_nonneg step
  have hsI : (step : Int) ≤ 32767 := by exact_mod_cast hs
  rcases le_or_lt 0 m with hm0 | hm0
  · have hme : m % 2 ^ 32 = m := Int.emod_eq_of_lt hm0 (by omega)
    have hub : m * step ≤ 127 * 32767 := by nlinarith
    have hlb : 0 ≤ m * step := mul_nonneg hm0 hs0
    have hpe : m * (step : Int) % 2 ^ 32 = m * step :=
      Int.emod_eq_of_lt hlb (by omega)
    rw [hme, hpe]
    unfold toSigned32
    rw [if_pos (by omega)]
  · have hme : m % 2 ^ 32 = m + 2 ^ 32 := by omega
    have hmul : (m + 2 ^ 32) * (step : Int) % 2 ^ 32 = m * step % 2 ^ 32 := by
      have : (m + 2 ^ 32) * (step : Int) = m * step + 2 ^ 32 * step := by ring
      rw [this, Int.add_mul_emod_self_left]
    have hlb : -(128 * 32767) ≤ m * step := by nlinarith
    have hub : m * step ≤ 0 := mul_nonpos_of_nonpos_of_nonneg (by omega) hs0
    rw [hme, hmul]
    unfold toSigned32
    rcases eq_or_lt_of_le hub with h0 | hneg
    · rw [h0, Int.zero_emod, if_pos (by omega)]
    · have hpe : m * (step : Int) % 2 ^ 32 = m * step + 2 ^ 32 := by omega
      rw [hpe, if_neg (by omega)]
      omega

/-- Shared form of the candidate delta: signed product, then floor
division by 8. -/
theorem candidateDelta_signed_product (c step : Nat) (hs : step ≤ 32767) :
    candidateDelta step c = (codeMult c * step).fdiv 8 := by
  unfold candidateDelta
  rw [toSigned32_wrap_mul (codeMult c) step (codeMult_bounds c).1
    (codeMult_bounds c).2 hs]

/-- C2 (amended): the candidate delta equals the signed 8-bit
multiplier times the step size, as an exact signed product, shifted
right arithmetically by 3 (floor division by 8) — the signed
reinterpretation happens before the shift, and the shift is
arithmetic. -/
theorem candidateDelta_eq_mult_fdiv (c step : Nat)
    (_hc : c < 16) (hs : step ≤ 32767) :
    candidateDelta step c = (codeMult c * step).fdiv 8 :=
  candidateDelta_signed_product c step hs

/-- C2 (witness for the amended theorem) at code 8 and step
`stepSizeTable[0] = 7`. -/
theorem candidateDelta_eq_mult_fdiv_w :
    8 < 16 ∧ 7 ≤ 32767 ∧ candidateDelta 7 8 = (codeMult 8 * 7).fdiv 8 :=
  ⟨by decide, by decide, candidateDelta_eq_mult_fdiv 8 7 (by decide) (by decide)⟩

/-! ### Bit-accounting lemmas for the block encoder -/

theorem bbAppend_count (b : BitBuf) (v n : Nat) :
    (bbAppend b v n).count = b.count + n := rfl

theorem emitChunks_count (l : List Nat) :
    ∀ b : BitBuf, (emitChunks b l).count = b.count + 4 * l.length := by
  induction l with
  | nil => intro b; simp [emitChunks]
  | cons g rest ih =>
    intro b
    cases rest with
    | nil => simp [emitChunks, bbAppend]
    | cons g2 r2 =>
      show (emitChunks (bbAppend (bbAppend b 1 1) g 3) (g2 :: r2)).count = _
      rw [ih]
      simp [bbAppend_count, List.length_cons]
      ring

theorem varChunks3_ne_nil (v : Nat) : varChunks3 v ≠ [] := by
  unfold varChunks3
  cases v with
  | zero => simp [varChunks3Go]
  | succ n =>
    show varChunks3Go (n + 1) (n + 1) ≠ []
    unfold varChunks3Go
    split <;> simp

theorem bbAppendVar3_count (b : BitBuf) (v : Nat) :
    (bbAppendVar3 b v).count = b.count + 4 * (varChunks3 v).length := by
  unfold bbAppendVar3
  exact emitChunks_count _ b

theorem zeroBuf_count : (⟨0, 0⟩ : BitBuf).count = 0 := rfl

theorem packCode_count (c : Code) (b : BitBuf) :
    (packCode c b).count = b.count + codeLen c := by
  obtain ⟨ct, cv⟩ := c
  cases ct <;> simp only [codeLen, packCode]
  · split <;> rw [bbAppendVar3_count, bbAppendVar3_count] <;>
      simp only [bbAppend_count, zeroBuf_count] <;> omega
  · rw [bbAppendVar3_count, bbAppendVar3_count]
    simp only [bbAppend_count, zeroBuf_count]
    omega
  · rw [bbAppendVar3_count, bbAppendVar3_count]
    simp only [zeroBuf_count]
    omega
  · rfl

theorem codeLen_ge_five (c : Code)
    (h : c.type = CType.DELTA ∨ c.type = CType.REF) : 5 ≤ codeLen c := by
  have hv : 1 ≤ (varChunks3 c.value.toNat).length :=
    List.length_pos.mpr (varChunks3_ne_nil _)
  have hv2 : 1 ≤ (varChunks3 (-c.value).toNat).length :=
    List.length_pos.mpr (varChunks3_ne_nil _)
  unfold codeLen packCode
  rcases h with h | h <;> rw [h] <;> dsimp only
  · split <;> rw [bbAppendVar3_count] <;> simp [bbAppend_count] <;> omega
  · rw [bbAppendVar3_count]; simp [bbAppend_count]; omega

theorem flushCoreGo_congr (f1 : Nat) :
    ∀ f2 bits count, count ≤ f1 → count ≤ f2 →
      flushCoreGo f1 bits count = flushCoreGo f2 bits count := by
  induction f1 with
  | zero =>
    intro f2 bits count h1 _
    interval_cases count
    cases f2 <;> simp [flushCoreGo]
  | succ f ih =>
    intro f2 bits count h1 h2
    cases f2 with
    | zero =>
      interval_cases count
      simp [flushCoreGo]
    | succ f2 =>
      show flushCoreGo (f + 1) bits count = flushCoreGo (f2 + 1) bits count
      unfold flushCoreGo
      dsimp only
      split
      · rename_i hc
        rw [ih f2 (bits / 2 ^ 16) (count - 16) (by omega) (by omega)]
      · rfl

theorem flushCore_eq (bits count : Nat) :
    flushCore bits count =
      if 16 ≤ count then
        ((bits % 2 ^ 16) :: (flushCore (bits / 2 ^ 16) (count - 16)).1,
          (flushCore (bits / 2 ^ 16) (count - 16)).2)
      else ([], (bits, count)) := by
  by_cases hc : 16 ≤ count
  · rw [if_pos hc]
    obtain ⟨n, rfl⟩ : ∃ n, count = n + 1 := ⟨count - 1, by omega⟩
    show flushCoreGo (n + 1) bits (n + 1) = _
    conv_lhs => rw [flushCoreGo]
    rw [if_pos hc]
    show (_ :: (flushCoreGo n (bits / 2 ^ 16) (n + 1 - 16)).1,
      (flushCoreGo n (bits / 2 ^ 16) (n + 1 - 16)).2) = _
    rw [flushCoreGo_congr n (n + 1 - 16) (bits / 2 ^ 16) (n + 1 - 16)
      (by omega) (by omega)]
    rfl
  · rw [if_neg hc]
    cases count with
    | zero => rfl
    | succ n =>
      show flushCoreGo (n + 1) bits (n + 1) = _
      conv_lhs => rw [flushCoreGo]
      rw [if_neg hc]

theorem flushCore_count (count : Nat) : ∀ bits : Nat,
    16 * (flushCore bits count).1.length + (flushCore bits count).2.2 = count ∧
      (flushCore bits count).2.2 < 16 := by
  induction count using Nat.strong_induction_on with
  | _ count ih =>
    intro bits
    rw [flushCore_eq]
    split
    · rename_i hc
      have h := ih (count - 16) (by omega) (bits / 2 ^ 16)
      simp only [List.length_cons]
      constructor
      · omega
      · exact h.2
    · rename_i hc
      simp
      omega

theorem bbFlush_count (b : BitBuf) :
    16 * (bbFlush b false).1.length + (bbFlush b false).2.count = b.count := by
  have h := flushCore_count b.count b.bits
  simp [bbFlush]
  omega

theorem bbFlushFinal_count (b : BitBuf) :
    b.count ≤ 16 * (bbFlush b true).1.length := by
  have h := flushCore_count b.count b.bits
  by_cases hz : (flushCore b.bits b.count).2.2 = 0
  · have he : (bbFlush b true).1 = (flushCore b.bits b.count).1 := by
      unfold bbFlush
      simp [hz]
    rw [he]
    omega
  · have he : (bbFlush b true).1 =
        (flushCore b.bits b.count).1 ++ [(flushCore b.bits b.count).2.1 % 2 ^ 16] := by
      unfold bbFlush
      simp [hz]
    rw [he]
    simp only [List.length_append, List.length_cons, List.length_nil]
    omega

/-! ### Monotonicity of the block-encoder bit total -/

theorem dubStep_total_mono (s : BState) (t : Nat) :
    dubBitsTotal s ≤ dubBitsTotal (dubStep s t) := by
  unfold dubStep
  dsimp only
  split
  · split
    · simp [dubBitsTotal]
    · have h1 := packCode_count ⟨CType.REPEAT, (s.repeatCount : Int)⟩ s.bits
      have h2 := bbFlush_count (packCode ⟨CType.REPEAT, (s.repeatCount : Int)⟩ s.bits)
      have h3 := packCode_count (findBestCode s.dict t)
        (bbFlush (packCode ⟨CType.REPEAT, (s.repeatCount : Int)⟩ s.bits) false).2
      have h4 := bbFlush_count (packCode (findBestCode s.dict t)
        (bbFlush (packCode ⟨CType.REPEAT, (s.repeatCount : Int)⟩ s.bits) false).2)
      simp only [dubBitsTotal, List.length_append]
      omega
  · have h3 := packCode_count (findBestCode s.dict t) s.bits
    have h4 := bbFlush_count (packCode (findBestCode s.dict t) s.bits)
    simp only [dubBitsTotal, List.length_append]
    omega

theorem foldl_dubStep_total_mono (l : List Nat) :
    ∀ s : BState, dubBitsTotal s ≤ dubBitsTotal (l.foldl dubStep s) := by
  induction l with
  | nil => intro s; simp
  | cons t rest ih =>
    intro s
    exact le_trans (dubStep_total_mono s t) (ih (dubStep s t))

theorem refScan_shape (dict : List Nat) (tile : Nat) (best : Code)
    (bestLen : Nat) : ∀ l : List Nat,
      refScan dict tile best bestLen l = best ∨
        (refScan dict tile best bestLen l).type = CType.REF := by
  intro l
  induction l with
  | nil => left; rfl
  | cons i rest ih =>
    unfold refScan
    split
    · split
      · right; rfl
      · exact ih
    · exact ih

theorem findBestCode_type (dict : List Nat) (tile : Nat) :
    (findBestCode dict tile).type = CType.DELTA ∨
      (findBestCode dict tile).type = CType.REF := by
  unfold findBestCode
  dsimp only
  rcases refScan_shape dict tile
    (if dict.isEmpty then ⟨CType.DELTA, (tile : Int)⟩
     else ⟨CType.DELTA, (tile : Int) - ((dict.getLast?.getD 0 : Nat) : Int)⟩)
    (codeLen (if dict.isEmpty then ⟨CType.DELTA, (tile : Int)⟩
     else ⟨CType.DELTA, (tile : Int) - ((dict.getLast?.getD 0 : Nat) : Int)⟩))
    (List.range dict.length) with h | h
  · rw [h]
    split <;> left <;> rfl
  · right; exact h

theorem dubStep_emits (s : BState) (t : Nat) (hr : s.repeating = false) :
    dubBitsTotal s + 5 ≤ dubBitsTotal (dubStep s t) := by
  unfold dubStep
  rw [hr]
  dsimp only
  simp only [Bool.false_eq_true, if_false]
  have h3 := packCode_count (findBestCode s.dict t) s.bits
  have h4 := bbFlush_count (packCode (findBestCode s.dict t) s.bits)
  have h5 : 5 ≤ codeLen (findBestCode s.dict t) := by
    apply codeLen_ge_five
    rcases findBestCode_type s.dict t with h | h
    · left; exact h
    · right; exact h
  simp only [dubBitsTotal, List.length_append]
  omega

theorem dubFinish_length (s : BState) :
    dubBitsTotal s ≤ 16 * (dubFinish s).length := by
  unfold dubFinish
  dsimp only
  simp only [List.length_append]
  split
  · have h1 := packCode_count ⟨CType.REPEAT, (s.repeatCount : Int)⟩ s.bits
    have h2 := bbFlushFinal_count (packCode ⟨CType.REPEAT, (s.repeatCount : Int)⟩ s.bits)
    simp only [dubBitsTotal]
    omega
  · have h2 := bbFlushFinal_count s.bits
    simp only [dubBitsTotal]
    omega

/-! ### Deduplication: first-occurrence structure -/

theorem uniqueFirsts_append (ps : List (List Nat)) (p : List Nat) :
    uniqueFirsts (ps ++ [p]) =
      if p ∈ uniqueFirsts ps then uniqueFirsts ps
      else uniqueFirsts ps ++ [p] := by
  unfold uniqueFirsts
  rw [List.foldl_append]
  rfl

theorem mem_uniqueFirsts (ps : List (List Nat)) (q : List Nat) :
    q ∈ uniqueFirsts ps ↔ q ∈ ps := by
  induction ps using List.reverseRecOn with
  | nil => simp [uniqueFirsts]
  | append_singleton ps p ih =>
    rw [uniqueFirsts_append]
    split
    · rename_i hp
      simp only [List.mem_append, List.mem_singleton, ih]
      constructor
      · intro hq; left; exact hq
      · rintro (hq | rfl)
        · exact hq
        · exact ih.mp hp
    · simp [ih]

theorem uniqueFirsts_nodup (ps : List (List Nat)) :
    (uniqueFirsts ps).Nodup := by
  induction ps using List.reverseRecOn with
  | nil => simp [uniqueFirsts]
  | append_singleton ps p ih =>
    rw [uniqueFirsts_append]
    split
    · exact ih
    · rename_i hp
      rw [List.nodup_append]
      refine ⟨ih, List.nodup_singleton p, ?_⟩
      intro x hx hx2
      simp only [List.mem_singleton] at hx2
      subst hx2
      exact hp hx

theorem offsetIn_append_of_mem (U : List (List Nat)) (p q : List Nat)
    (h : q ∈ U) : offsetIn (U ++ [p]) q = offsetIn U q := by
  induction U with
  | nil => simp at h
  | cons r rest ih =>
    show offsetIn (r :: (rest ++ [p])) q = _
    unfold offsetIn
    split
    · rfl
    · rename_i hr
      rw [ih]
      rcases List.mem_cons.mp h with h1 | h1
      · exact absurd h1.symm hr
      · exact h1

theorem offsetIn_append_self (U : List (List Nat)) (p : List Nat)
    (h : p ∉ U) : offsetIn (U ++ [p]) p = U.flatten.length := by
  induction U with
  | nil => simp [offsetIn]
  | cons r rest ih =>
    show offsetIn (r :: (rest ++ [p])) p = _
    unfold offsetIn
    have hr : r ≠ p := by
      intro he; exact h (he ▸ List.mem_cons_self r rest)
    rw [if_neg hr, ih (fun hm => h (List.mem_cons_of_mem r hm))]
    simp

theorem offsetIn_add_length_le (U : List (List Nat)) (q : List Nat)
    (h : q ∈ U) : offsetIn U q + q.length ≤ U.flatten.length := by
  induction U with
  | nil => simp at h
  | cons r rest ih =>
    unfold offsetIn
    split
    · rename_i hr
      subst hr
      simp
    · rename_i hr
      have h1 : q ∈ rest := by
        rcases List.mem_cons.mp h with h1 | h1
        · exact absurd h1.symm hr
        · exact h1
      have := ih h1
      simp only [List.flatten_cons, List.length_append]
      omega

theorem offsetIn_inj (U : List (List Nat)) (hn : U.Nodup)
    (hne : ∀ q ∈ U, q ≠ []) (p q : List Nat) (hp : p ∈ U) (hq : q ∈ U)
    (he : offsetIn U p = offsetIn U q) : p = q := by
  induction U with
  | nil => simp at hp
  | cons r rest ih =>
    have hrne : r ≠ [] := hne r (List.mem_cons_self r rest)
    have hrlen : 1 ≤ r.length := List.length_pos.mpr hrne
    unfold offsetIn at he
    by_cases h1 : r = p <;> by_cases h2 : r = q
    · rw [← h1, ← h2]
    · rw [if_pos h1, if_neg h2] at he
      have hq2 : q ∈ rest := by
        rcases List.mem_cons.mp hq with h3 | h3
        · exact absurd h3.symm h2
        · exact h3
      omega
    · rw [if_neg h1, if_pos h2] at he
      omega
    · rw [if_neg h1, if_neg h2] at he
      have hp2 : p ∈ rest := by
        rcases List.mem_cons.mp hp with h3 | h3
        · exact absurd h3.symm h1
        · exact h3
      have hq2 : q ∈ rest := by
        rcases List.mem_cons.mp hq with h3 | h3
        · exact absurd h3.symm h2
        · exact h3
      exact ih (List.Nodup.of_cons hn)
        (fun x hx => hne x (List.mem_cons_of_mem r hx)) hp2 hq2 (by omega)

theorem find?_memo_map (U : List (List Nat)) (g : List Nat → Nat)
    (p : List Nat) :
    (U.map fun q => (q, g q)).find? (fun e => e.1 = p) =
      if p ∈ U then some (p, g p) else none := by
  induction U with
  | nil => rfl
  | cons r rest ih =>
    rw [List.map_cons]
    by_cases hr : r = p
    · subst hr
      rw [List.find?_cons_of_pos _ (by simp)]
      rw [if_pos (List.mem_cons_self r rest)]
    · rw [List.find?_cons_of_neg _ (by simp [hr]), ih]
      by_cases hp : p ∈ rest
      · rw [if_pos hp, if_pos (List.mem_cons_of_mem r hp)]
      · rw [if_neg hp, if_neg ?_]
        intro hmem
        rcases List.mem_cons.mp hmem with h | h
        · exact hr h.symm
        · exact hp h

/-- The dedupe loop, in closed form: the index array maps each payload
to the offset of its first occurrence (mod `2^16`), the block data is
the concatenation of the distinct payloads in first-occurrence order,
and the memo records exactly the distinct payloads with their
offsets. -/
theorem dedupe_spec (ps : List (List Nat)) :
    dedupe ps =
      ⟨ps.map (fun p => offsetIn (uniqueFirsts ps) p % 2 ^ 16),
       (uniqueFirsts ps).flatten,
       (uniqueFirsts ps).map
         (fun q => (q, offsetIn (uniqueFirsts ps) q % 2 ^ 16))⟩ := by
  induction ps using List.reverseRecOn with
  | nil => rfl
  | append_singleton ps p ih =>
    unfold dedupe at ih ⊢
    rw [List.foldl_append, ih]
    show dedupeStep _ p = _
    unfold dedupeStep
    rw [find?_memo_map (uniqueFirsts ps)
      (fun q => offsetIn (uniqueFirsts ps) q % 2 ^ 16) p]
    by_cases hp : p ∈ uniqueFirsts ps
    · rw [if_pos hp]
      have hU : uniqueFirsts (ps ++ [p]) = uniqueFirsts ps := by
        rw [uniqueFirsts_append, if_pos hp]
      simp only [hU, List.map_append, List.map_cons, List.map_nil]
    · rw [if_neg hp]
      have hU : uniqueFirsts (ps ++ [p]) = uniqueFirsts ps ++ [p] := by
        rw [uniqueFirsts_append, if_neg hp]
      have hofp : offsetIn (uniqueFirsts ps ++ [p]) p =
          (uniqueFirsts ps).flatten.length := offsetIn_append_self _ p hp
      simp only [DState.mk.injEq, hU]
      refine ⟨?_, ?_, ?_⟩
      · rw [List.map_append]
        congr 1
        · apply List.map_congr_left
          intro q hq
          rw [offsetIn_append_of_mem _ p q ((mem_uniqueFirsts ps q).mpr hq)]
        · simp only [List.map_cons, List.map_nil]
          rw [hofp]
      · rw [List.flatten_append]
        simp
      · rw [List.map_append]
        congr 1
        · apply List.map_congr_left
          intro q hq
          rw [offsetIn_append_of_mem _ p q hq]
        · simp only [List.map_cons, List.map_nil]
          rw [hofp]

theorem encodeBlock_ne_nil (l : List Nat) (hl : l ≠ []) :
    encodeBlock l ≠ [] := by
  obtain ⟨t, rest, rfl⟩ := List.exists_cons_of_ne_nil hl
  unfold encodeBlock
  have h1 : 5 ≤ dubBitsTotal (dubStep dubInit t) := by
    have := dubStep_emits dubInit t rfl
    simpa [dubBitsTotal, dubInit] using this
  have h2 := foldl_dubStep_total_mono rest (dubStep dubInit t)
  have h3 := dubFinish_length ((t :: rest).foldl dubStep dubInit)
  have h4 : (t :: rest).foldl dubStep dubInit = rest.foldl dubStep (dubStep dubInit t) := rfl
  intro hnil
  rw [hnil] at h3
  rw [h4] at h3
  simp at h3
  omega

/-! ### Block counting and payload nonemptiness -/

theorem blockTiles_length (tiles : List Nat) (w h f by2 bx : Nat) :
    (blockTiles tiles w h f by2 bx).length =
      min 8 (h - 8 * by2) * min 8 (w - 8 * bx) := by
  unfold blockTiles
  rw [List.length_flatMap]
  simp [Function.comp_def, List.map_const', List.sum_replicate, smul_eq_mul]

theorem blockPayloads_length (tiles : List Nat) (w h f : Nat) :
    (blockPayloads tiles w h f).length =
      f * (((h + 7) / 8) * ((w + 7) / 8)) := by
  unfold blockPayloads
  rw [List.length_flatMap]
  simp [Function.comp_def, List.length_flatMap, List.map_const',
    List.sum_replicate, smul_eq_mul]

theorem blockPayloads_ne_nil (tiles : List Nat) (w h f : Nat) (p : List Nat)
    (hp : p ∈ blockPayloads tiles w h f) : p ≠ [] := by
  unfold blockPayloads at hp
  simp only [List.mem_flatMap, List.mem_map, List.mem_range] at hp
  obtain ⟨fi, hfi, by2, hby, bx, hbx, rfl⟩ := hp
  apply encodeBlock_ne_nil
  apply List.length_pos.mp
  rw [blockTiles_length]
  have h1 : 1 ≤ min 8 (h - 8 * by2) := by omega
  have h2 : 1 ≤ min 8 (w - 8 * bx) := by omega
  exact Nat.mul_pos h1 h2

theorem getD_map_of_lt {α β : Type} (l : List α) (g : α → β) (i : Nat)
    (hi : i < l.length) (d : α) (d2 : β) :
    (l.map g).getD i d2 = g (l.getD i d) := by
  have hi2 : i < (l.map g).length := by simpa using hi
  rw [List.getD_eq_getElem _ _ hi2, List.getD_eq_getElem _ _ hi, List.getElem_map]

theorem getD_mem_of_lt {α : Type} (l : List α) (i : Nat) (hi : i < l.length)
    (d : α) : l.getD i d ∈ l := by
  rw [List.getD_eq_getElem _ _ hi]
  exact List.getElem_mem hi

/-! ### Claims C5, C6 and C9 -/

theorem encodeTiles_indexResult_length (tiles : List Nat) (w h f : Nat) :
    (encodeTiles tiles w h f).indexResult.length = dubNumBlocks w h f := by
  show (dedupe (blockPayloads tiles w h f)).idx.length = _
  rw [dedupe_spec]
  dsimp only
  rw [List.length_map, blockPayloads_length]
  unfold dubNumBlocks
  have h1 : w + 8 - 1 = w + 7 := by omega
  have h2 : h + 8 - 1 = h + 7 := by omega
  rw [h1, h2]
  ring

/-- C9: for every block position and under either index-width
hypothesis, `nextWord ≤ indexSize + storedOffset[i]`, so `packIndex`'s
unsigned subtraction never wraps: the packed entry is a nonnegative
forward word offset. -/
theorem dub_packIndex_no_wrap (tiles : List Nat) (w h f : Nat) (b : Bool)
    (i : Nat) (hi : i < (encodeTiles tiles w h f).indexResult.length) :
    (if b then i + 1 else (i + 2) / 2) ≤
      dubIndexSize (encodeTiles tiles w h f).indexResult b +
        (encodeTiles tiles w h f).indexResult.getD i 0 := by
  unfold dubIndexSize
  cases b <;> simp only [if_true, if_false, Bool.false_eq_true, reduceIte] <;> omega

/-- C9 (witness): the single-block input `[0]`, 1×1×1, at the 8-bit
hypothesis, position 0. -/
theorem dub_packIndex_no_wrap_w :
    0 < (encodeTiles [0] 1 1 1).indexResult.length ∧
    (if false then 0 + 1 else (0 + 2) / 2) ≤
      dubIndexSize (encodeTiles [0] 1 1 1).indexResult false +
        (encodeTiles [0] 1 1 1).indexResult.getD 0 0 :=
  ⟨by decide, dub_packIndex_no_wrap [0] 1 1 1 false 0 (by decide)⟩

/-- C5: the encoder selects a 16-bit index exactly when some packed
index entry, computed under the 8-bit hypothesis
(`indexSize = (blockCount+1)/2`, `nextWord = (i+2)/2`), reaches 256. -/
theorem dub_isIndex16_iff (tiles : List Nat) (w h f : Nat) :
    (encodeTiles tiles w h f).mIndex16 = true ↔
      ∃ i < dubNumBlocks w h f,
        256 ≤ (dubNumBlocks w h f + 1) / 2 +
          (encodeTiles tiles w h f).indexResult.getD i 0 - (i + 2) / 2 := by
  have hm : (encodeTiles tiles w h f).mIndex16 =
      (List.range (encodeTiles tiles w h f).indexResult.length).any
        (fun i => 0x100 ≤ dubPackIndex (encodeTiles tiles w h f).indexResult false i) :=
    rfl
  rw [hm, List.any_eq_true]
  unfold dubPackIndex dubIndexSize
  simp only [List.mem_range, Bool.false_eq_true, reduceIte, decide_eq_true_eq,
    encodeTiles_indexResult_length]

/-- C6: under the encoder's own size bound (`isTooLarge` false), two
blocks share an index entry iff their payloads are identical; every
entry is the word offset of the payload's first occurrence, the block
data is the concatenation of the distinct payloads in first-occurrence
order, and every entry points (with its payload) inside the block-data
region. -/
theorem dub_dedupe_exact (tiles : List Nat) (w h f : Nat)
    (hbig : dubIsTooLarge (encodeTiles tiles w h f) = false) :
    (∀ i j, i < (blockPayloads tiles w h f).length →
        j < (blockPayloads tiles w h f).length →
        ((encodeTiles tiles w h f).indexResult.getD i 0 =
            (encodeTiles tiles w h f).indexResult.getD j 0 ↔
          (blockPayloads tiles w h f).getD i [] =
            (blockPayloads tiles w h f).getD j [])) ∧
    (encodeTiles tiles w h f).blockResult =
      (uniqueFirsts (blockPayloads tiles w h f)).flatten ∧
    (∀ i, i < (blockPayloads tiles w h f).length →
        (encodeTiles tiles w h f).indexResult.getD i 0 =
          offsetIn (uniqueFirsts (blockPayloads tiles w h f))
            ((blockPayloads tiles w h f).getD i []) ∧
        (encodeTiles tiles w h f).indexResult.getD i 0 +
            ((blockPayloads tiles w h f).getD i []).length ≤
          (encodeTiles tiles w h f).blockResult.length) := by
  have hidx : (encodeTiles tiles w h f).indexResult =
      (blockPayloads tiles w h f).map
        (fun p => offsetIn (uniqueFirsts (blockPayloads tiles w h f)) p % 2 ^ 16) := by
    show (dedupe (blockPayloads tiles w h f)).idx = _
    rw [dedupe_spec]
  have hblk : (encodeTiles tiles w h f).blockResult =
      (uniqueFirsts (blockPayloads tiles w h f)).flatten := by
    show (dedupe (blockPayloads tiles w h f)).blocks = _
    rw [dedupe_spec]
  have hsize : (encodeTiles tiles w h f).blockResult.length < 2 ^ 16 := by
    unfold dubIsTooLarge at hbig
    simp only [decide_eq_false_iff_not, not_le] at hbig
    omega
  have hne : ∀ q ∈ uniqueFirsts (blockPayloads tiles w h f), q ≠ [] := by
    intro q hq
    exact blockPayloads_ne_nil tiles w h f q ((mem_uniqueFirsts _ q).mp hq)
  have hofslt : ∀ q ∈ uniqueFirsts (blockPayloads tiles w h f),
      offsetIn (uniqueFirsts (blockPayloads tiles w h f)) q % 2 ^ 16 =
        offsetIn (uniqueFirsts (blockPayloads tiles w h f)) q := by
    intro q hq
    apply Nat.mod_eq_of_lt
    have h1 := offsetIn_add_length_le _ q hq
    have h2 : 1 ≤ q.length := List.length_pos.mpr (hne q hq)
    rw [hblk] at hsize
    omega
  have hgetD : ∀ i, i < (blockPayloads tiles w h f).length →
      (encodeTiles tiles w h f).indexResult.getD i 0 =
        offsetIn (uniqueFirsts (blockPayloads tiles w h f))
          ((blockPayloads tiles w h f).getD i []) := by
    intro i hi
    rw [hidx, getD_map_of_lt _ _ i hi []]
    exact hofslt _ ((mem_uniqueFirsts _ _).mpr (getD_mem_of_lt _ i hi []))
  refine ⟨?_, hblk, ?_⟩
  · intro i j hi hj
    rw [hgetD i hi, hgetD j hj]
    constructor
    · intro he
      exact offsetIn_inj _ (uniqueFirsts_nodup _) hne _ _
        ((mem_uniqueFirsts _ _).mpr (getD_mem_of_lt _ i hi []))
        ((mem_uniqueFirsts _ _).mpr (getD_mem_of_lt _ j hj [])) he
    · intro he
      rw [he]
  · intro i hi
    refine ⟨hgetD i hi, ?_⟩
    rw [hgetD i hi, hblk]
    exact offsetIn_add_length_le _ _
      ((mem_uniqueFirsts _ _).mpr (getD_mem_of_lt _ i hi []))

/-- C6 (witness): the 1×1×1 input `[0]` is not too large; the theorem
applies to it. -/
theorem dub_dedupe_exact_w :
    dubIsTooLarge (encodeTiles [0] 1 1 1) = false ∧
    ((∀ i j, i < (blockPayloads [0] 1 1 1).length →
        j < (blockPayloads [0] 1 1 1).length →
        ((encodeTiles [0] 1 1 1).indexResult.getD i 0 =
            (encodeTiles [0] 1 1 1).indexResult.getD j 0 ↔
          (blockPayloads [0] 1 1 1).getD i [] =
            (blockPayloads [0] 1 1 1).getD j [])) ∧
    (encodeTiles [0] 1 1 1).blockResult =
      (uniqueFirsts (blockPayloads [0] 1 1 1)).flatten ∧
    (∀ i, i < (blockPayloads [0] 1 1 1).length →
        (encodeTiles [0] 1 1 1).indexResult.getD i 0 =
          offsetIn (uniqueFirsts (blockPayloads [0] 1 1 1))
            ((blockPayloads [0] 1 1 1).getD i []) ∧
        (encodeTiles [0] 1 1 1).indexResult.getD i 0 +
            ((blockPayloads [0] 1 1 1).getD i []).length ≤
          (encodeTiles [0] 1 1 1).blockResult.length)) :=
  ⟨by decide, dub_dedupe_exact [0] 1 1 1 (by decide)⟩

/-! ### Claims C7, C8, C10 -/

/-- C7: both clamps run on every per-sample update, unconditionally:
whatever the incoming state, after `encodeSample` the predictor lies in
`[-32768, 32767]` and the step index in `[0, 88]`; hence the invariant
holds after every sample of any stream. -/
theorem encodeSample_clamps (st : AState) (s : Int) :
    -32768 ≤ (encodeSample st s).2.sample ∧
      (encodeSample st s).2.sample ≤ 32767 ∧
      0 ≤ (encodeSample st s).2.index ∧ (encodeSample st s).2.index ≤ 88 := by
  unfold encodeSample INDEX_MAX
  dsimp only
  refine ⟨?_, ?_, ?_, ?_⟩ <;> omega

/-- C8: for inputs shorter than 4 bytes the optimisation is skipped and
the output is the header `[0, 0, 0]` plus one body byte exactly when
the input holds a complete 16-bit sample. -/
theorem adpcm_short_input (inb : List Nat) (hlen : inb.length < 4) :
    (adpcmEncode inb).take 3 = [0, 0, 0] ∧
      (adpcmEncode inb).length = (if 2 ≤ inb.length then 4 else 3) := by
  have hnp : inb.length / 2 / 2 = 0 := by omega
  have hh : adpcmHeader ⟨0, 0⟩ = [0, 0, 0] := by decide
  unfold adpcmEncode optimizeIC
  rw [if_pos hlen]
  unfold encodeWithIC
  dsimp only
  rw [hnp]
  simp only [List.range_zero, List.foldl_nil]
  by_cases h2 : 2 ≤ inb.length
  · have hodd : inb.length / 2 % 2 = 1 := by omega
    rw [if_pos hodd]
    dsimp only
    rw [hh]
    refine ⟨rfl, ?_⟩
    rw [if_pos h2]
    simp
  · have hodd : ¬inb.length / 2 % 2 = 1 := by omega
    rw [if_neg hodd]
    dsimp only
    rw [hh]
    refine ⟨rfl, ?_⟩
    rw [if_neg h2]
    rfl

/-- C8 (witness): the 3-byte input of spec scenario 2. -/
theorem adpcm_short_input_w :
    ([0x12, 0x34, 0x56] : List Nat).length < 4 ∧
    ((adpcmEncode [0x12, 0x34, 0x56]).take 3 = [0, 0, 0] ∧
      (adpcmEncode [0x12, 0x34, 0x56]).length =
        (if 2 ≤ ([0x12, 0x34, 0x56] : List Nat).length then 4 else 3)) :=
  ⟨by decide, adpcm_short_input [0x12, 0x34, 0x56] (by decide)⟩

/-- C10: the PCM passthrough appends the input to the caller's output
without clearing it: the previous content is an unchanged prefix and
the input follows it. -/
theorem pcm_append_frame (inb out : List Nat) :
    (pcmEncode inb out).length = out.length + inb.length ∧
    (pcmEncode inb out).take out.length = out ∧
    (pcmEncode inb out).drop out.length = inb := by
  unfold pcmEncode
  exact ⟨by simp, List.take_left out inb, List.drop_left out inb⟩

/-! ### Claim C4: the per-sample code choice -/

theorem selectCode_inv (step : Nat) (diff : Int) :
    ∀ (l : List Nat) (init : Int × Nat), l.Pairwise (· < ·) →
      sampErr diff (selectCode step diff l init).1 ≤ sampErr diff init.1 ∧
      (∀ c ∈ l, sampErr diff (selectCode step diff l init).1 ≤
        sampErr diff (candidateDelta step c)) ∧
      (∀ c ∈ l, sampErr diff (candidateDelta step c) ≤
          sampErr diff (selectCode step diff l init).1 →
        c ≤ (selectCode step diff l init).2) ∧
      (selectCode step diff l init = init ∨
        ((selectCode step diff l init).2 ∈ l ∧
          (selectCode step diff l init).1 =
            candidateDelta step (selectCode step diff l init).2)) := by
  intro l
  induction l with
  | nil =>
    intro init _
    refine ⟨le_refl _, ?_, ?_, Or.inl rfl⟩ <;> simp
  | cons c rest ih =>
    intro init hp
    have hlt : ∀ x ∈ rest, c < x := (List.pairwise_cons.mp hp).1
    have hp2 : rest.Pairwise (· < ·) := (List.pairwise_cons.mp hp).2
    have hstep : selectCode step diff (c :: rest) init =
        selectCode step diff rest
          (if sampErr diff (candidateDelta step c) ≤ sampErr diff init.1
            then (candidateDelta step c, c) else init) := rfl
    by_cases hacc : sampErr diff (candidateDelta step c) ≤ sampErr diff init.1
    · obtain ⟨ihA, ihB, ihC, ihD⟩ := ih (candidateDelta step c, c) hp2
      rw [hstep, if_pos hacc]
      refine ⟨le_trans ihA hacc, ?_, ?_, ?_⟩
      · intro c2 hc2
        rcases List.mem_cons.mp hc2 with rfl | hc2
        · exact ihA
        · exact ihB c2 hc2
      · intro c2 hc2 hle
        rcases List.mem_cons.mp hc2 with rfl | hc2
        · rcases ihD with he | ⟨hmem, _⟩
          · rw [he]
          · exact le_of_lt (hlt _ hmem)
        · exact ihC c2 hc2 hle
      · rcases ihD with he | ⟨hmem, hval⟩
        · right
          rw [he]
          exact ⟨List.mem_cons_self _ _, rfl⟩
        · right
          exact ⟨List.mem_cons_of_mem _ hmem, hval⟩
    · obtain ⟨ihA, ihB, ihC, ihD⟩ := ih init hp2
      rw [hstep, if_neg hacc]
      refine ⟨ihA, ?_, ?_, ?_⟩
      · intro c2 hc2
        rcases List.mem_cons.mp hc2 with rfl | hc2
        · exact le_trans ihA (le_of_lt (lt_of_not_le hacc))
        · exact ihB c2 hc2
      · intro c2 hc2 hle
        rcases List.mem_cons.mp hc2 with rfl | hc2
        · exact absurd (le_trans hle ihA) hacc
        · exact ihC c2 hc2 hle
      · rcases ihD with he | hr
        · exact Or.inl he
        · exact Or.inr ⟨List.mem_cons_of_mem _ hr.1, hr.2⟩

theorem stepSizeTable_bounds :
    ∀ i, i < 89 → 7 ≤ stepSizeTable.getD i 0 ∧ stepSizeTable.getD i 0 ≤ 32767 := by
  decide

theorem codeMult_small : ∀ c, c < 16 → -15 ≤ codeMult c ∧ codeMult c ≤ 15 := by
  decide

theorem candidateDelta_bounds (step c : Nat) (hs : 7 ≤ step)
    (hs2 : step ≤ 32767) (hc : c < 16) :
    -61440 ≤ candidateDelta step c ∧ candidateDelta step c ≤ 61438 := by
  rw [candidateDelta_signed_product c step hs2,
    Int.fdiv_eq_ediv _ (by norm_num)]
  have h1 := codeMult_small c hc
  have hsi : (7 : Int) ≤ (step : Int) ∧ (step : Int) ≤ 32767 :=
    ⟨by exact_mod_cast hs, by exact_mod_cast hs2⟩
  have hub : codeMult c * step ≤ 15 * 32767 := by nlinarith
  have hlb : -(15 * 32767) ≤ codeMult c * step := by nlinarith
  omega

/-- C4: for an in-range state and sample, the emitted 4-bit code
minimises `thisError = max(candidateDelta - diff, diff - candidateDelta)`
over all 16 candidates, and a tie is resolved in favour of the largest
code number. -/
theorem encodeSample_code_optimal (st : AState) (s : Int)
    (h1 : -32768 ≤ st.sample) (h2 : st.sample ≤ 32767)
    (h3 : 0 ≤ st.index) (h4 : st.index ≤ 88)
    (h5 : -32768 ≤ s) (h6 : s ≤ 32767) :
    (∀ c < 16,
      sampErr (s - st.sample)
          (candidateDelta (stepSizeTable.getD st.index.toNat 0)
            (encodeSample st s).1) ≤
        sampErr (s - st.sample)
          (candidateDelta (stepSizeTable.getD st.index.toNat 0) c)) ∧
    ∀ c < 16,
      sampErr (s - st.sample)
          (candidateDelta (stepSizeTable.getD st.index.toNat 0) c) =
        sampErr (s - st.sample)
          (candidateDelta (stepSizeTable.getD st.index.toNat 0)
            (encodeSample st s).1) →
      c ≤ (encodeSample st s).1 := by
  set step := stepSizeTable.getD st.index.toNat 0 with hstep
  set diff := s - st.sample with hdiff
  have hcode : (encodeSample st s).1 =
      (selectCode step diff (List.range 16) (0x100000, 0)).2 := rfl
  obtain ⟨iA, iB, iC, iD⟩ := selectCode_inv step diff (List.range 16)
    (0x100000, 0) (List.pairwise_lt_range 16)
  have hidx : st.index.toNat < 89 := by omega
  have hsb := stepSizeTable_bounds st.index.toNat hidx
  have hdiffb : -65535 ≤ diff ∧ diff ≤ 65535 := by omega
  have hd0 := candidateDelta_bounds step 0 hsb.1 hsb.2 (by norm_num)
  have hsent : (983041 : Int) ≤ sampErr diff 0x100000 := by
    unfold sampErr
    omega
  have herr0 : sampErr diff (candidateDelta step 0) ≤ 126975 := by
    unfold sampErr
    omega
  have hne : selectCode step diff (List.range 16) (0x100000, 0) ≠
      (0x100000, 0) := by
    intro he
    have hb0 := iB 0 (List.mem_range.mpr (by norm_num))
    rw [he] at hb0
    have : sampErr diff (0x100000, (0 : Nat)).1 = sampErr diff 0x100000 := rfl
    rw [this] at hb0
    omega
  rcases iD with he | ⟨_, hval⟩
  · exact absurd he hne
  · constructor
    · intro c hc
      rw [hcode, ← hval]
      exact iB c (List.mem_range.mpr hc)
    · intro c hc hEq
      rw [hcode]
      apply iC c (List.mem_range.mpr hc)
      rw [hEq, hcode, ← hval]

/-- C4 (witness) at the zero state and sample 100. -/
theorem encodeSample_code_optimal_w :
    (-32768 ≤ (⟨0, 0⟩ : AState).sample) ∧ ((⟨0, 0⟩ : AState).sample ≤ 32767) ∧
    (0 ≤ (⟨0, 0⟩ : AState).index) ∧ ((⟨0, 0⟩ : AState).index ≤ 88) ∧
    (-32768 ≤ (100 : Int)) ∧ ((100 : Int) ≤ 32767) ∧
    ((∀ c < 16,
      sampErr ((100 : Int) - (⟨0, 0⟩ : AState).sample)
          (candidateDelta (stepSizeTable.getD (⟨0, 0⟩ : AState).index.toNat 0)
            (encodeSample ⟨0, 0⟩ 100).1) ≤
        sampErr ((100 : Int) - (⟨0, 0⟩ : AState).sample)
          (candidateDelta (stepSizeTable.getD (⟨0, 0⟩ : AState).index.toNat 0) c)) ∧
    ∀ c < 16,
      sampErr ((100 : Int) - (⟨0, 0⟩ : AState).sample)
          (candidateDelta (stepSizeTable.getD (⟨0, 0⟩ : AState).index.toNat 0) c) =
        sampErr ((100 : Int) - (⟨0, 0⟩ : AState).sample)
          (candidateDelta (stepSizeTable.getD (⟨0, 0⟩ : AState).index.toNat 0)
            (encodeSample ⟨0, 0⟩ 100).1) →
      c ≤ (encodeSample ⟨0, 0⟩ 100).1) :=
  ⟨by decide, by decide, by decide, by decide, by decide, by decide,
    encodeSample_code_optimal ⟨0, 0⟩ 100 (by decide) (by decide) (by decide)
      (by decide) (by decide) (by decide)⟩

/-! ### Claim C3: the initial-index search -/

theorem ewicFold_err_lt (inb : List Nat) (l : List Nat) :
    ∀ acc : AState × List Nat × Nat, acc.2.2 < 2 ^ 64 →
      (l.foldl (ewicStep inb) acc).2.2 < 2 ^ 64 := by
  induction l with
  | nil => intro acc h; exact h
  | cons i rest ih =>
    intro acc _
    apply ih
    show (_ + _) % 2 ^ 64 < 2 ^ 64
    exact Nat.mod_lt _ (by norm_num)

theorem encodeWithIC_err_lt (st0 : AState) (inb : List Nat) (n : Nat) :
    (encodeWithIC st0 inb n).2 < 2 ^ 64 := by
  unfold encodeWithIC
  dsimp only
  split
  · exact Nat.mod_lt _ (by norm_num)
  · exact ewicFold_err_lt inb _ _ (by norm_num)

theorem icErr_lt (inb : List Nat) (i : Nat) : icErr inb i < 2 ^ 64 :=
  encodeWithIC_err_lt _ inb _

theorem argminFold_inv (g : Nat → Nat) :
    ∀ (l : List Nat) (init : Nat × Nat), l.Pairwise (· < ·) →
      (∀ i ∈ l, init.2 ≤ i) →
      (argminFold g l init).1 ≤ init.1 ∧
      (∀ i ∈ l, (argminFold g l init).1 ≤ g i) ∧
      (∀ i ∈ l, i < (argminFold g l init).2 → (argminFold g l init).1 < g i) ∧
      (argminFold g l init = init ∨
        ((argminFold g l init).2 ∈ l ∧
          g (argminFold g l init).2 = (argminFold g l init).1 ∧
          (argminFold g l init).1 < init.1)) := by
  intro l
  induction l with
  | nil =>
    intro init _ _
    refine ⟨le_refl _, ?_, ?_, Or.inl rfl⟩ <;> simp
  | cons c rest ih =>
    intro init hp hinit
    have hlt : ∀ x ∈ rest, c < x := (List.pairwise_cons.mp hp).1
    have hp2 : rest.Pairwise (· < ·) := (List.pairwise_cons.mp hp).2
    have hstep : argminFold g (c :: rest) init =
        argminFold g rest (if g c < init.1 then (g c, c) else init) := rfl
    by_cases hacc : g c < init.1
    · obtain ⟨ihA, ihB, ihC, ihD⟩ := ih (g c, c) hp2
        (fun x hx => le_of_lt (hlt x hx))
      rw [hstep, if_pos hacc]
      refine ⟨le_trans ihA (le_of_lt hacc), ?_, ?_, ?_⟩
      · intro i hi
        rcases List.mem_cons.mp hi with rfl | hi
        · exact ihA
        · exact ihB i hi
      · intro i hi hlt2
        rcases List.mem_cons.mp hi with rfl | hi
        · rcases ihD with he | ⟨_, hg, hlt3⟩
          · rw [he] at hlt2
            exact absurd hlt2 (lt_irrefl _)
          · omega
        · exact ihC i hi hlt2
      · rcases ihD with he | ⟨hmem, hg, hlt3⟩
        · right
          rw [he]
          exact ⟨List.mem_cons_self _ _, rfl, hacc⟩
        · right
          exact ⟨List.mem_cons_of_mem _ hmem, hg, lt_trans hlt3 hacc⟩
    · obtain ⟨ihA, ihB, ihC, ihD⟩ := ih init hp2
        (fun x hx => hinit x (List.mem_cons_of_mem _ hx))
      rw [hstep, if_neg hacc]
      refine ⟨ihA, ?_, ?_, ?_⟩
      · intro i hi
        rcases List.mem_cons.mp hi with rfl | hi
        · omega
        · exact ihB i hi
      · intro i hi hlt2
        rcases List.mem_cons.mp hi with rfl | hi
        · rcases ihD with he | ⟨_, _, hlt3⟩
          · rw [he] at hlt2
            have := hinit i (List.mem_cons_self _ _)
            omega
          · omega
        · exact ihC i hi hlt2
      · rcases ihD with he | hr
        · exact Or.inl he
        · exact Or.inr ⟨List.mem_cons_of_mem _ hr.1, hr.2⟩

theorem find?_range_eq_some (p : Nat → Bool) (r : Nat) :
    ∀ n, r < n → p r = true → (∀ i, i < r → p i = false) →
      (List.range n).find? p = some r := by
  intro n
  induction n with
  | zero => intro hr; exact absurd hr (Nat.not_lt_zero r)
  | succ n ih =>
    intro hr hpr hlt
    rw [List.range_succ, List.find?_append]
    by_cases hrn : r < n
    · rw [ih hrn hpr hlt]
      rfl
    · have hreq : r = n := by omega
      subst hreq
      have hnone : (List.range r).find? p = none := by
        rw [List.find?_eq_none]
        intro x hx
        rw [List.mem_range] at hx
        simp [hlt x hx]
      rw [hnone]
      simp [List.find?, hpr]

set_option maxHeartbeats 4000000 in
/-- C3 (counterexample): on the 4-byte input holding samples
`-30000, 30000`, the spec's search over the inclusive range `[0, 88]`
retains index 88, but the encoder's loop runs `index < INDEX_MAX` and
never evaluates 88, retaining a different index. -/
theorem icSearch_range_counterexample :
    4 ≤ ([208, 138, 48, 117] : List Nat).length ∧
    (icSearch [208, 138, 48, 117] INDEX_MAX).2 ≠
      icSpecBest [208, 138, 48, 117] 89 := by
  constructor
  · decide
  · decide

/-- C3 (amended): the search evaluates every initial index in
`[0, 88)` — 88 itself is excluded — re-encoding the at-most-200-byte
prefix from each, and retains the index with the lowest 64-bit error
sum, the earliest winning ties. -/
theorem icSearch_eq_spec (inb : List Nat) (_h4 : 4 ≤ inb.length) :
    (icSearch inb INDEX_MAX).2 = icSpecBest inb INDEX_MAX := by
  unfold icSearch icSpecBest INDEX_MAX
  dsimp only
  obtain ⟨iA, iB, iC, iD⟩ := argminFold_inv (icErr inb) (List.range 88)
    (2 ^ 64 - 1, 0) (List.pairwise_lt_range 88) (fun i _ => Nat.zero_le i)
  have hglt : ∀ i, icErr inb i ≤ 2 ^ 64 - 1 := by
    intro i
    have := icErr_lt inb i
    omega
  have herrsD : ∀ i, i < 88 →
      ((List.range 88).map (icErr inb)).getD i 0 = icErr inb i := by
    intro i hi
    have hi2 : i < (List.range 88).length := by simpa using hi
    rw [getD_map_of_lt _ _ i hi2 0]
    congr 1
    rw [List.getD_eq_getElem _ _ hi2, List.getElem_range]
  rcases iD with he | ⟨hmem, hg, _⟩
  · have hall : ∀ j, j < 88 → icErr inb j = 2 ^ 64 - 1 := by
      intro j hj
      have h1 := iB j (List.mem_range.mpr hj)
      rw [he] at h1
      have h2 := hglt j
      omega
    rw [he]
    show (0 : Nat) = _
    rw [find?_range_eq_some _ 0 88 (by norm_num)
      ?_ (fun i hi => absurd hi (Nat.not_lt_zero i))]
    · rfl
    · rw [List.all_eq_true]
      intro j hj
      rw [List.mem_range] at hj
      simp only [decide_eq_true_eq]
      rw [herrsD 0 (by norm_num), herrsD j hj, hall 0 (by norm_num), hall j hj]
  · have hr88 : (argminFold (icErr inb) (List.range 88) (2 ^ 64 - 1, 0)).2 < 88 :=
      List.mem_range.mp hmem
    rw [find?_range_eq_some _
      (argminFold (icErr inb) (List.range 88) (2 ^ 64 - 1, 0)).2 88
      hr88 ?_ ?_]
    · rfl
    · rw [List.all_eq_true]
      intro j hj
      rw [List.mem_range] at hj
      simp only [decide_eq_true_eq]
      rw [herrsD _ hr88, herrsD j hj, hg]
      exact iB j (List.mem_range.mpr hj)
    · intro i hi
      have hi88 : i < 88 := lt_trans hi hr88
      have hstrict := iC i (List.mem_range.mpr hi88) hi
      rw [← Bool.not_eq_true, List.all_eq_true]
      intro hcon
      have hle := hcon (argminFold (icErr inb) (List.range 88) (2 ^ 64 - 1, 0)).2
        (List.mem_range.mpr hr88)
      simp only [decide_eq_true_eq] at hle
      rw [herrsD i hi88, herrsD _ hr88, hg] at hle
      omega

/-- C3 (witness for the amended theorem) on the counterexample input. -/
theorem icSearch_eq_spec_w :
    4 ≤ ([208, 138, 48, 117] : List Nat).length ∧
    (icSearch [208, 138, 48, 117] INDEX_MAX).2 =
      icSpecBest [208, 138, 48, 117] INDEX_MAX :=
  ⟨by decide, icSearch_eq_spec [208, 138, 48, 117] (by decide)⟩

end Thunder
